import Mathlib

/-!
# leveldb-shell: a shallow embedding of `LevelDBShell.cc`

The shell is a read-eval-print loop over an embedded ordered key-value
engine.  The embedding keeps the structure of the C++ source:

* `std::string` is a list of characters (`Bytes`);
* the two `std::regex` objects of `PutCommand` are values of a small pattern
  type, run by a backtracking matcher with the ECMAScript priorities;
* the database handle `m_db` is a value of type `Store`; the engine behind it
  is not part of the repository and is modelled from its contract;
* every handler is a function on a `Shell` state that carries the store, the
  log of engine calls made so far, and the text written to the two streams.
-/

namespace LevelDBShell

/-! ## Strings -/

/-- A `std::string`: a sequence of `char`s. -/
abbrev Bytes := List Char

/-- The single-quote character that delimits arguments. -/
abbrev quote : Char := '\''

/-- `std::string::find(char)`: the index of the first occurrence of `c`,
`none` standing for `std::string::npos`. -/
def find : Bytes → Char → Option Nat
  | [], _ => none
  | x :: xs, c => if x = c then some 0 else (find xs c).map (· + 1)

/-- `std::string::substr(pos, n)`. -/
def substr (s : Bytes) (pos n : Nat) : Bytes := (s.drop pos).take n

/-- `std::string::substr(pos)`: everything from index `pos` on. -/
def substrFrom (s : Bytes) (pos : Nat) : Bytes := s.drop pos

/-! ## The fragment of `std::regex` (ECMAScript grammar) used by `PutCommand` -/

/-- The pattern elements that occur in the two regular expressions of the source. -/
inductive Pat where
  /-- `^`: the beginning of the target sequence -/
  | bol
  /-- `$`: the end of the target sequence -/
  | eol
  /-- a literal character -/
  | chr (c : Char)
  /-- `\s{1}`: exactly one white-space character -/
  | space
  /-- `(.*)`: a capture group holding a greedy run of `.` -/
  | groupAnyStar
  deriving DecidableEq

/-- ECMAScript `.` matches every character except a line terminator; for
`char` these are line feed and carriage return. -/
def isLineTerminator (c : Char) : Bool := c = '\n' || c = '\r'

/-- The class `\s` in the classic "C" locale (`isspace`): space, `\t`, `\n`,
`\v`, `\f`, `\r`. -/
def isSpace (c : Char) : Bool :=
  c = ' ' || c = '\t' || c = '\n' || c = Char.ofNat 11 || c = Char.ofNat 12 || c = '\r'

/-- Greedy `.*` followed by the continuation `k`: the run is extended as far
as possible first, and shortened one character at a time while `k` fails.
`acc` is the text the group has consumed so far. -/
def starGreedy {R : Type} (k : Bytes → Bytes → Option R) : Bytes → Bytes → Option R
  | acc, [] => k acc []
  | acc, c :: cs =>
    if isLineTerminator c then k acc (c :: cs)
    else
      match starGreedy k (acc ++ [c]) cs with
      | some r => some r
      | none => k acc (c :: cs)

/-- The backtracking matcher.  `run ps k caps pos xs` matches the pattern `ps`
against a prefix of `xs`, which starts at offset `pos` of the target sequence;
`caps` are the capture groups closed so far; the continuation `k` receives the
captures, the new offset and the rest of the input, and a `none` from it makes
the matcher backtrack. -/
def run {R : Type} : List Pat → (List Bytes → Nat → Bytes → Option R) →
    List Bytes → Nat → Bytes → Option R
  | [], k, caps, pos, xs => k caps pos xs
  | Pat.bol :: ps, k, caps, pos, xs => if pos = 0 then run ps k caps pos xs else none
  | Pat.eol :: ps, k, caps, pos, xs =>
    match xs with
    | [] => run ps k caps pos []
    | _ :: _ => none
  | Pat.chr c :: ps, k, caps, pos, xs =>
    match xs with
    | [] => none
    | x :: rest => if x = c then run ps k caps (pos + 1) rest else none
  | Pat.space :: ps, k, caps, pos, xs =>
    match xs with
    | [] => none
    | x :: rest => if isSpace x then run ps k caps (pos + 1) rest else none
  | Pat.groupAnyStar :: ps, k, caps, pos, xs =>
    starGreedy (fun g rest => run ps k (caps ++ [g]) (pos + g.length) rest) [] xs

/-- The continuation that ends `std::regex_match`: the match counts only when
it has consumed the whole target sequence. -/
def kfin : List Bytes → Nat → Bytes → Option (List Bytes) :=
  fun caps _ rest => match rest with
    | [] => some caps
    | _ :: _ => none

/-- The capture groups of the match of `rgx` against the whole of `s`, if the
pattern matches. -/
def regex_groups (s : Bytes) (rgx : List Pat) : Option (List Bytes) :=
  run rgx kfin [] 0 s

/-- `std::regex_match(s, matches, rgx)`: the pattern must match the whole target
sequence; `none` is the result `false`, and `some matched` holds what the call
leaves in `matches`: the whole match at index 0, the capture groups after it. -/
def regex_match (s : Bytes) (rgx : List Pat) : Option (List Bytes) :=
  (regex_groups s rgx).map (fun groups => s :: groups)

/-- The number of characters of the match of `rgx` that starts at offset `pos`
(the input from there on being `xs`), if there is one. -/
def matchLength (rgx : List Pat) (pos : Nat) (xs : Bytes) : Option Nat :=
  run rgx (fun _ p _ => some (p - pos)) [] pos xs

/-- The loop of `std::regex_replace`: `skip` characters still belong to the
match replaced last; otherwise a match starting here is replaced by `fmt` and
a character that starts no match is copied. -/
def replaceFrom (rgx : List Pat) (fmt : Bytes) : Nat → Nat → Bytes → Bytes
  | _, _, [] => []
  | skip + 1, pos, _ :: cs => replaceFrom rgx fmt skip (pos + 1) cs
  | 0, pos, c :: cs =>
    match matchLength rgx pos (c :: cs) with
    | some (n + 1) => fmt ++ replaceFrom rgx fmt n (pos + 1) cs
    | _ => c :: replaceFrom rgx fmt 0 (pos + 1) cs

/-- `std::regex_replace(s, rgx, fmt)` for a pattern that matches no empty
string: every non-overlapping match, found from left to right, is replaced by
`fmt`, the text between the matches is copied. -/
def regex_replace (s : Bytes) (rgx : List Pat) (fmt : Bytes) : Bytes :=
  replaceFrom rgx fmt 0 0 s

/-- The pattern `"^'(.*)'\\s{1}'(.*)'$"` of `PutCommand`. -/
def rgx : List Pat :=
  [Pat.bol, Pat.chr quote, Pat.groupAnyStar, Pat.chr quote, Pat.space,
   Pat.chr quote, Pat.groupAnyStar, Pat.chr quote, Pat.eol]

/-- The pattern `"''"` of the two `std::regex_replace` calls. -/
def rgxDoubled : List Pat := [Pat.chr quote, Pat.chr quote]

/-! ## The storage engine -/

/-- Modelled from the spec: `leveldb::Status`, the result type of the external
storage engine, "distinguishing not found from other failures". -/
inductive Status where
  | OK
  | NotFound
  | IOError (msg : Bytes)
  deriving DecidableEq

/-- `Status::ok()`. -/
def Status.ok : Status → Bool
  | Status.OK => true
  | _ => false

/-- Modelled from the spec: `Status::ToString()`, the text of a status. -/
def Status.ToString : Status → Bytes
  | Status.OK => "OK".toList
  | Status.NotFound => "NotFound: ".toList
  | Status.IOError msg => "IO error: ".toList ++ msg

/-- Modelled from the spec: the state of the external storage engine
(`leveldb::DB`), one flat namespace of opaque byte-string keys and values.
The list is read as a finite map in which the first binding of a key is the
current one. -/
abbrev Store := List (Bytes × Bytes)

/-- Modelled from the spec: the engine's native sort order, byte-lexicographic
(`leveldb::BytewiseComparator`): the first differing byte decides, and a proper
prefix sorts first. -/
def bytesLt : Bytes → Bytes → Bool
  | [], [] => false
  | [], _ :: _ => true
  | _ :: _, [] => false
  | a :: as, b :: bs => if a < b then true else if b < a then false else bytesLt as bs

/-- The current binding of `key` in the store, if any. -/
def Store.lookup : Store → Bytes → Option Bytes
  | [], _ => none
  | (k, v) :: rest, key => if k = key then some v else Store.lookup rest key

/-- Modelled from the spec: `DB::Get`, a lookup; a key without a binding gives
the status "not found" and leaves the output string as it was (empty). -/
def DB.Get (db : Store) (key : Bytes) : Status × Bytes :=
  match db.lookup key with
  | some value => (Status.OK, value)
  | none => (Status.NotFound, [])

/-- The store without any binding of `key`. -/
def Store.erase : Store → Bytes → Store
  | [], _ => []
  | (k, v) :: rest, key =>
    if k = key then Store.erase rest key else (k, v) :: Store.erase rest key

/-- Modelled from the spec: `DB::Put`, an unconditional upsert. -/
def DB.Put (db : Store) (key value : Bytes) : Status × Store :=
  (Status.OK, (key, value) :: db.erase key)

/-- Modelled from the spec: `DB::Delete`, an unconditional removal; deleting an
absent key is not an error. -/
def DB.Delete (db : Store) (key : Bytes) : Status × Store :=
  (Status.OK, db.erase key)

/-- Insertion of a binding into a list sorted by key, replacing the binding of
an equal key. -/
def orderedUpsert : List (Bytes × Bytes) → Bytes → Bytes → List (Bytes × Bytes)
  | [], key, value => [(key, value)]
  | (k, v) :: rest, key, value =>
    if key = k then (key, value) :: rest
    else if bytesLt key k then (key, value) :: (k, v) :: rest
    else (k, v) :: orderedUpsert rest key value

/-- Modelled from the spec: `DB::NewIterator` followed by `SeekToFirst`, the
full-range forward iterator: the current bindings in the engine's sort order.
The iterator of the model never fails, so its `status()` is always OK. -/
def DB.NewIterator (db : Store) : List (Bytes × Bytes) :=
  db.foldr (fun p acc => orderedUpsert acc p.1 p.2) []

/-! ## The shell state -/

/-- A call of the engine's API, as the handlers make it. -/
inductive Call where
  | Get (key : Bytes)
  | Put (key value : Bytes)
  | Delete (key : Bytes)
  | NewIterator
  deriving DecidableEq

/-- The two output streams. -/
inductive Stream where
  | cout
  | cerr
  deriving DecidableEq

/-- One output statement: the concatenated text of a `<<` chain, and whether it
ends in `std::endl`. -/
structure Write where
  stream : Stream
  text : Bytes
  endl : Bool
  deriving DecidableEq

/-- The state a handler works on: the database behind `m_db`, the engine calls
made so far and the output written so far, both oldest first. -/
structure Shell where
  m_db : Store
  calls : List Call
  out : List Write
  deriving DecidableEq

/-- A `<<` chain that ends in `std::endl`. -/
def Shell.println (sh : Shell) (stream : Stream) (text : Bytes) : Shell :=
  { sh with out := sh.out ++ [⟨stream, text, true⟩] }

/-- A `<<` chain without `std::endl`. -/
def Shell.print (sh : Shell) (stream : Stream) (text : Bytes) : Shell :=
  { sh with out := sh.out ++ [⟨stream, text, false⟩] }

/-- The engine call `c` is made, leaving the store `db`. -/
def Shell.call (sh : Shell) (c : Call) (db : Store) : Shell :=
  { sh with m_db := db, calls := sh.calls ++ [c] }

/-- The text of the macro `PRINT_KEY_VALUE(key, value)`. -/
def PRINT_KEY_VALUE (key value : Bytes) : Bytes :=
  "'".toList ++ key ++ "': '".toList ++ value ++ "'".toList

/-! ## The handlers -/

/-- `LevelDBShell::GetCommand`. -/
def GetCommand (sh : Shell) (args : Bytes) : Shell :=
  let key := args
  if key.length ≥ 2 ∧ key.head? = some quote ∧ key.getLast? = some quote then
    let key := substr key 1 (key.length - 2)
    let (s, value) := DB.Get sh.m_db key
    let sh := sh.call (Call.Get key) sh.m_db
    if s.ok then sh.println Stream.cout (PRINT_KEY_VALUE key value)
    else sh.println Stream.cout ("Error retrieving key '".toList ++ key ++ "'".toList)
  else
    sh.println Stream.cerr "Arguments must be surrounded by quotes.".toList

/-- `LevelDBShell::DeleteCommand`. -/
def DeleteCommand (sh : Shell) (args : Bytes) : Shell :=
  let key := args
  if key.length ≥ 2 ∧ key.head? = some quote ∧ key.getLast? = some quote then
    let key := substr key 1 (key.length - 2)
    let (s, db) := DB.Delete sh.m_db key
    let sh := sh.call (Call.Delete key) db
    if s.ok then sh.println Stream.cout ("Deleted ".toList ++ key)
    else sh.println Stream.cout ("Error: ".toList ++ s.ToString)
  else
    sh.println Stream.cerr "Arguments must be surrounded by quotes.".toList

/-- The `for` loop of `ListCommand`: one `PRINT_KEY_VALUE` per position of the
iterator. -/
def printAll (sh : Shell) : List (Bytes × Bytes) → Shell
  | [] => sh
  | (key, value) :: it => printAll (sh.println Stream.cout (PRINT_KEY_VALUE key value)) it

/-- `LevelDBShell::ListCommand`.  The argument is not used.  The assertion on
the iterator's status holds in the model, whose iterator never fails. -/
def ListCommand (sh : Shell) (_args : Bytes) : Shell :=
  let it := DB.NewIterator sh.m_db
  printAll (sh.call Call.NewIterator sh.m_db) it

/-- `LevelDBShell::PutCommand`. -/
def PutCommand (sh : Shell) (args : Bytes) : Shell :=
  match regex_match args rgx with
  | some matched =>
    let key := matched.getD 1 []
    let value := matched.getD 2 []
    let key := regex_replace key rgxDoubled "'".toList
    let value := regex_replace value rgxDoubled "'".toList
    let (s, db) := DB.Put sh.m_db key value
    let sh := sh.call (Call.Put key value) db
    if s.ok then
      sh.println Stream.cout ("put '".toList ++ key ++ "' to '".toList ++ value ++ "'".toList)
    else sh.println Stream.cout ("Error: ".toList ++ s.ToString)
  | none =>
    sh.println Stream.cout "Invalid 'put' command. Usage: put '<key>' '<value>'".toList

/-- The table `m_command_map` as the constructor fills it. -/
def m_command_map : List (Bytes × (Shell → Bytes → Shell)) :=
  [("get".toList, GetCommand), ("put".toList, PutCommand),
   ("list".toList, ListCommand), ("delete".toList, DeleteCommand)]

/-- `std::map::find` on the command table. -/
def mapFind : List (Bytes × (Shell → Bytes → Shell)) → Bytes → Option (Shell → Bytes → Shell)
  | [], _ => none
  | (name, handler) :: rest, key => if name = key then some handler else mapFind rest key

/-- `LevelDBShell::ExecuteCommand`. -/
def ExecuteCommand (sh : Shell) (command : Bytes) : Shell :=
  let space_pos := find command ' '
  let parsed_cmd := match space_pos with
    | some pos => substr command 0 pos
    | none => command
  let args := match space_pos with
    | some pos => substrFrom command (pos + 1)
    | none => []
  match mapFind m_command_map parsed_cmd with
  | some handler => handler sh args
  | none => sh.println Stream.cerr ("Unknown command: ".toList ++ command)

/-- `std::getline(std::cin, command)`.  `cin` holds the lines the stream still
yields (a text that ends in a newline yields a last, empty line); once they are
used up the stream has failed, the call extracts nothing and `command` keeps
its value. -/
def getline (cin : List Bytes) (command : Bytes) : Bytes × List Bytes :=
  match cin with
  | [] => (command, [])
  | line :: rest => (line, rest)

/-- The `while (true)` loop of `Start`; `fuel` bounds the number of iterations,
`none` is a loop that has not ended within them. -/
def StartLoop : Nat → Shell → List Bytes → Bytes → Option Shell
  | 0, _, _, _ => none
  | fuel + 1, sh, cin, command =>
    let sh := sh.print Stream.cout "> ".toList
    let (command, cin) := getline cin command
    if command = "exit".toList then some (sh.println Stream.cout "Exiting the shell.".toList)
    else StartLoop fuel (ExecuteCommand sh command) cin command

/-- `LevelDBShell::Start`, reading the lines `cin` from standard input. -/
def Start (fuel : Nat) (sh : Shell) (cin : List Bytes) : Option Shell :=
  StartLoop fuel (sh.println Stream.cout "LevelDB REPL Shell. Type 'exit' to quit.".toList) cin []

/-- A shell right after construction on an empty database. -/
def Shell.fresh : Shell := ⟨[], [], []⟩

/-! ## Vocabulary of the properties -/

/-- The escaping convention of the command syntax: the text with every single
quote written twice. -/
def doubleQuotes : Bytes → Bytes
  | [] => []
  | c :: cs => if c = quote then quote :: quote :: doubleQuotes cs else c :: doubleQuotes cs

/-- The argument strings that are exactly two quoted tokens separated by a
single space, each token an opening quote, a text in which every single quote
is written as a doubled pair, and a closing quote. -/
def TwoQuotedTokens (args : Bytes) : Prop :=
  ∃ k v, args = quote :: (doubleQuotes k ++ quote :: ' ' :: quote :: (doubleQuotes v ++ [quote]))

/-- The argument strings of the form quote, `g1`, quote, one white-space
character, quote, `g2`, quote, where `g1` and `g2` hold no line terminator. -/
def PutShape (args g1 g2 : Bytes) : Prop :=
  ∃ w, isSpace w = true ∧ (∀ c ∈ g1, isLineTerminator c = false) ∧
    (∀ c ∈ g2, isLineTerminator c = false) ∧
    args = quote :: (g1 ++ quote :: w :: quote :: (g2 ++ [quote]))

/-- The state `PutCommand` leaves once the pattern has matched with the groups
`g1` and `g2`. -/
def putAccepted (sh : Shell) (g1 g2 : Bytes) : Shell :=
  let key := regex_replace g1 rgxDoubled "'".toList
  let value := regex_replace g2 rgxDoubled "'".toList
  (sh.call (Call.Put key value) (DB.Put sh.m_db key value).2).println Stream.cout
    ("put '".toList ++ key ++ "' to '".toList ++ value ++ "'".toList)

/-- The state `PutCommand` leaves when the pattern has not matched. -/
def putRejected (sh : Shell) : Shell :=
  sh.println Stream.cout "Invalid 'put' command. Usage: put '<key>' '<value>'".toList

/-- A list of bindings in strictly ascending order of key. -/
def Ascending (l : List (Bytes × Bytes)) : Prop :=
  l.Pairwise (fun a b => bytesLt a.1 b.1 = true)

/-- One iteration of the loop of `Start` on a line that is not the sentinel:
the prompt, then the dispatch of the line. -/
def loopBody (sh : Shell) (line : Bytes) : Shell :=
  ExecuteCommand (sh.print Stream.cout "> ".toList) line

/-! ## Lemmas on the matcher -/

theorem starGreedy_split {R : Type} (k : Bytes → Bytes → Option R) (xs : Bytes) :
    ∀ (acc : Bytes) (r : R), starGreedy k acc xs = some r →
      ∃ g rest, xs = g ++ rest ∧ (∀ c ∈ g, isLineTerminator c = false) ∧
        k (acc ++ g) rest = some r := by
  induction xs with
  | nil =>
    intro acc r h
    exact ⟨[], [], rfl, by simp, by simpa [starGreedy] using h⟩
  | cons c cs ih =>
    intro acc r h
    unfold starGreedy at h
    by_cases hc : isLineTerminator c = true
    · rw [if_pos hc] at h
      exact ⟨[], c :: cs, rfl, by simp, by simpa using h⟩
    · rw [if_neg hc] at h
      cases hs : starGreedy k (acc ++ [c]) cs with
      | some r1 =>
        rw [hs] at h
        obtain ⟨g, rest, hx, hg, hk⟩ := ih (acc ++ [c]) r1 hs
        refine ⟨c :: g, rest, by simp [hx], ?_, ?_⟩
        · intro d hd
          rcases List.mem_cons.1 hd with rfl | hd
          · simpa using hc
          · exact hg d hd
        · simp only [Option.some.injEq] at h
          subst h
          simpa using hk
      | none =>
        rw [hs] at h
        exact ⟨[], c :: cs, rfl, by simp, by simpa using h⟩

theorem starGreedy_longest {R : Type} (k : Bytes → Bytes → Option R) (g : Bytes) :
    ∀ (acc rest : Bytes) (r : R), (∀ c ∈ g, isLineTerminator c = false) →
      k (acc ++ g) rest = some r →
      (∀ e rest1, e ≠ [] → (∀ c ∈ e, isLineTerminator c = false) → rest = e ++ rest1 →
        k (acc ++ g ++ e) rest1 = none) →
      starGreedy k acc (g ++ rest) = some r := by
  induction g with
  | nil =>
    intro acc rest r _ hk hmax
    cases rest with
    | nil => simpa [starGreedy] using hk
    | cons c cs =>
      simp only [List.nil_append]
      unfold starGreedy
      by_cases hc : isLineTerminator c = true
      · rw [if_pos hc]; simpa using hk
      · rw [if_neg hc]
        cases hs : starGreedy k (acc ++ [c]) cs with
        | some r1 =>
          obtain ⟨g1, rest1, hx, hg1, hk1⟩ := starGreedy_split k cs (acc ++ [c]) r1 hs
          have hce : ∀ d ∈ c :: g1, isLineTerminator d = false := by
            intro d hd
            rcases List.mem_cons.1 hd with rfl | hd
            · simpa using hc
            · exact hg1 d hd
          have := hmax (c :: g1) rest1 (by simp) hce (by simp [hx])
          simp at this hk1
          rw [hk1] at this
          exact absurd this (by simp)
        | none => simpa using hk
  | cons c g1 ih =>
    intro acc rest r hg hk hmax
    have hc : ¬ isLineTerminator c = true := by
      have := hg c (by simp)
      simp [this]
    simp only [List.cons_append]
    unfold starGreedy
    rw [if_neg hc]
    have := ih (acc ++ [c]) rest r (fun d hd => hg d (by simp [hd])) (by simpa using hk)
      (fun e rest1 he hl hr => by simpa using hmax e rest1 he hl hr)
    rw [this]

theorem run_close (caps : List Bytes) (pos : Nat) (rest : Bytes) :
    run [Pat.chr quote, Pat.eol] kfin caps pos rest
      = if rest = [quote] then some caps else none := by
  match rest with
  | [] => simp [run]
  | [x] =>
    by_cases hx : x = quote
    · simp [run, hx, kfin]
    · simp [run, hx]
  | x :: y :: t =>
    by_cases hx : x = quote
    · simp [run, hx]
    · simp [run, hx]

theorem star_last (caps : List Bytes) (pos : Nat) (u : Bytes) (r : List Bytes) :
    starGreedy (fun g rest => run [Pat.chr quote, Pat.eol] kfin (caps ++ [g]) (pos + g.length) rest)
        [] u = some r ↔
      ∃ g2, (∀ c ∈ g2, isLineTerminator c = false) ∧ u = g2 ++ [quote] ∧ r = caps ++ [g2] := by
  constructor
  · intro h
    obtain ⟨g, rest, hu, hg, hk⟩ := starGreedy_split _ u [] r h
    simp only [List.nil_append, run_close] at hk
    by_cases hr : rest = [quote]
    · rw [if_pos hr] at hk
      exact ⟨g, hg, by rw [hu, hr], by simpa using hk.symm⟩
    · rw [if_neg hr] at hk
      exact absurd hk (by simp)
  · rintro ⟨g2, hg, hu, hr⟩
    subst hu hr
    apply starGreedy_longest _ g2 [] [quote] _ hg
    · simp [run_close]
    · intro e rest1 he _ hr
      simp only [run_close]
      have : rest1 ≠ [quote] := by
        intro h1
        rw [h1] at hr
        have := congrArg List.length hr
        simp at this
        exact he this
      simp [this]

theorem run_tail (g1 : Bytes) (pos : Nat) (rest : Bytes) (r : List Bytes) :
    run [Pat.chr quote, Pat.space, Pat.chr quote, Pat.groupAnyStar, Pat.chr quote, Pat.eol]
        kfin [g1] pos rest = some r ↔
      ∃ w g2, isSpace w = true ∧ (∀ c ∈ g2, isLineTerminator c = false) ∧
        rest = quote :: w :: quote :: (g2 ++ [quote]) ∧ r = [g1, g2] := by
  match rest with
  | [] => simp [run]
  | [a] => by_cases ha : a = quote <;> simp [run, ha]
  | [a, w] => by_cases ha : a = quote <;> by_cases hw : isSpace w = true <;> simp [run, ha, hw]
  | a :: w :: b :: u =>
    by_cases h : a = quote ∧ isSpace w = true ∧ b = quote
    · obtain ⟨ha, hw, hb⟩ := h
      subst ha hb
      have hrun : run [Pat.chr quote, Pat.space, Pat.chr quote, Pat.groupAnyStar, Pat.chr quote,
            Pat.eol] kfin [g1] pos (quote :: w :: quote :: u)
          = starGreedy (fun g rest => run [Pat.chr quote, Pat.eol] kfin ([g1] ++ [g])
              (pos + 1 + 1 + 1 + g.length) rest) [] u := by
        simp [run, hw]
      rw [hrun, star_last]
      constructor
      · rintro ⟨g2, hg, hu, hr⟩
        exact ⟨w, g2, hw, hg, by rw [hu], by simpa using hr⟩
      · rintro ⟨w1, g2, _, hg, hu, hr⟩
        simp only [List.cons.injEq, true_and] at hu
        exact ⟨g2, hg, hu.2, by simpa using hr⟩
    · constructor
      · intro hr
        exfalso
        apply h
        by_cases ha : a = quote
        · by_cases hw : isSpace w = true
          · by_cases hb : b = quote
            · exact ⟨ha, hw, hb⟩
            · simp [run, ha, hw, hb] at hr
          · simp [run, ha, hw] at hr
        · simp [run, ha] at hr
      · rintro ⟨w1, g2, hw, _, hu, _⟩
        simp only [List.cons.injEq] at hu
        exfalso
        apply h
        obtain ⟨h1, h2, h3, _⟩ := hu
        exact ⟨h1, by rw [h2]; exact hw, h3⟩

theorem regex_groups_cons (t : Bytes) :
    regex_groups (quote :: t) rgx
      = starGreedy (fun g rest => run [Pat.chr quote, Pat.space, Pat.chr quote,
          Pat.groupAnyStar, Pat.chr quote, Pat.eol] kfin [g] (1 + g.length) rest) [] t := by
  simp [regex_groups, rgx, run]

theorem regex_groups_shape (args : Bytes) (r : List Bytes) (h : regex_groups args rgx = some r) :
    ∃ g1 g2, PutShape args g1 g2 ∧ r = [g1, g2] := by
  match args with
  | [] => simp [regex_groups, rgx, run] at h
  | x :: t =>
    by_cases hx : x = quote
    · subst hx
      rw [regex_groups_cons] at h
      obtain ⟨g, rest, ht, hg, hk⟩ := starGreedy_split _ t [] r h
      simp only [List.nil_append] at hk
      obtain ⟨w, g2, hw, hg2, hrest, hr⟩ := (run_tail g _ rest r).1 hk
      exact ⟨g, g2, ⟨w, hw, hg, hg2, by rw [ht, hrest]⟩, hr⟩
    · simp [regex_groups, rgx, run, hx] at h

theorem regex_groups_longest (args g1 g2 : Bytes) (h : PutShape args g1 g2)
    (hmax : ∀ e h2, e ≠ [] → ¬ PutShape args (g1 ++ e) h2) :
    regex_groups args rgx = some [g1, g2] := by
  obtain ⟨w, hw, hg1, hg2, hargs⟩ := h
  subst hargs
  rw [regex_groups_cons]
  apply starGreedy_longest _ g1 [] _ _ hg1
  · simp only [List.nil_append]
    exact (run_tail g1 _ _ _).2 ⟨w, g2, hw, hg2, rfl, rfl⟩
  · intro e rest1 he hle hrest
    simp only [List.nil_append]
    cases hk : run [Pat.chr quote, Pat.space, Pat.chr quote, Pat.groupAnyStar, Pat.chr quote,
        Pat.eol] kfin [g1 ++ e] (1 + (g1 ++ e).length) rest1 with
    | none => rfl
    | some r =>
      exfalso
      obtain ⟨w1, h2, hw1, hh2, hr1, _⟩ := (run_tail _ _ _ _).1 hk
      refine hmax e h2 he ⟨w1, hw1, ?_, hh2, ?_⟩
      · intro c hc
        rcases List.mem_append.1 hc with hc | hc
        · exact hg1 c hc
        · exact hle c hc
      · rw [hrest, hr1]; simp

theorem regex_groups_none (args : Bytes) (h : ∀ g1 g2, ¬ PutShape args g1 g2) :
    regex_groups args rgx = none := by
  cases hr : regex_groups args rgx with
  | none => rfl
  | some r =>
    obtain ⟨g1, g2, hs, _⟩ := regex_groups_shape args r hr
    exact absurd hs (h g1 g2)

theorem PutCommand_of_match (sh : Shell) (args g1 g2 : Bytes)
    (h : regex_groups args rgx = some [g1, g2]) : PutCommand sh args = putAccepted sh g1 g2 := by
  simp [PutCommand, regex_match, h, putAccepted, DB.Put, Status.ok]

theorem PutCommand_of_no_shape (sh : Shell) (args : Bytes) (h : ∀ g1 g2, ¬ PutShape args g1 g2) :
    PutCommand sh args = putRejected sh := by
  simp [PutCommand, regex_match, regex_groups_none args h, putRejected]

theorem matchLength_doubled (pos : Nat) (xs : Bytes) :
    matchLength rgxDoubled pos xs = if xs.take 2 = [quote, quote] then some 2 else none := by
  match xs with
  | [] => simp [matchLength, rgxDoubled, run]
  | [a] => by_cases ha : a = quote <;> simp [matchLength, rgxDoubled, run, ha]
  | a :: b :: t =>
    by_cases ha : a = quote <;> by_cases hb : b = quote <;>
      simp [matchLength, rgxDoubled, run, ha, hb]
    omega

theorem replaceFrom_doubleQuotes (k : Bytes) :
    ∀ pos, replaceFrom rgxDoubled [quote] 0 pos (doubleQuotes k) = k := by
  induction k with
  | nil => intro pos; simp [doubleQuotes, replaceFrom]
  | cons c cs ih =>
    intro pos
    by_cases hc : c = quote
    · subst hc
      simp only [doubleQuotes, if_true]
      rw [replaceFrom, matchLength_doubled]
      simp only [List.take, if_true]
      rw [replaceFrom, ih]
      rfl
    · simp only [doubleQuotes, if_neg hc]
      rw [replaceFrom, matchLength_doubled]
      have : ¬ ((c :: doubleQuotes cs).take 2 = [quote, quote]) := by
        intro h
        cases hd : doubleQuotes cs with
        | nil => rw [hd] at h; simp at h
        | cons d ds => rw [hd] at h; simp at h; exact hc h.1
      rw [if_neg this, ih]

theorem regex_replace_doubleQuotes (k : Bytes) :
    regex_replace (doubleQuotes k) rgxDoubled "'".toList = k :=
  replaceFrom_doubleQuotes k 0

theorem doubleQuotes_of_not_mem (k : Bytes) (h : quote ∉ k) : doubleQuotes k = k := by
  induction k with
  | nil => rfl
  | cons c cs ih =>
    have hc : c ≠ quote := fun hc => h (by simp [hc])
    have hcs : quote ∉ cs := fun hcs => h (by simp [hcs])
    simp [doubleQuotes, hc, ih hcs]

theorem regex_replace_of_not_mem (k : Bytes) (h : quote ∉ k) :
    regex_replace k rgxDoubled "'".toList = k := by
  have := regex_replace_doubleQuotes k
  rwa [doubleQuotes_of_not_mem k h] at this

theorem isLineTerminator_doubleQuotes (k : Bytes) (h : ∀ c ∈ k, isLineTerminator c = false) :
    ∀ c ∈ doubleQuotes k, isLineTerminator c = false := by
  induction k with
  | nil => simp [doubleQuotes]
  | cons d ds ih =>
    have hd := h d (by simp)
    have hds := ih (fun c hc => h c (by simp [hc]))
    intro c hc
    by_cases hq : d = quote
    · simp only [doubleQuotes, if_pos hq, List.mem_cons] at hc
      rcases hc with rfl | rfl | hc
      · decide
      · decide
      · exact hds c hc
    · simp only [doubleQuotes, if_neg hq, List.mem_cons] at hc
      rcases hc with rfl | hc
      · exact hd
      · exact hds c hc

/-- With a value text free of quotes the first group cannot be longer than the
text before the last quote-space-quote. -/
theorem shape_longest (g1 v : Bytes) (w : Char) (hw : isSpace w = true) (hv : quote ∉ v)
    (e h2 : Bytes) (he : e ≠ []) :
    ¬ PutShape (quote :: (g1 ++ quote :: w :: quote :: (v ++ [quote]))) (g1 ++ e) h2 := by
  rintro ⟨w1, _, _, _, heq⟩
  have hwq : w ≠ quote := by
    intro h
    rw [h] at hw
    exact absurd hw (by decide)
  simp only [List.cons.injEq, true_and, List.append_assoc, List.append_cancel_left_eq] at heq
  match e, he with
  | c :: e1, _ =>
    simp only [List.cons_append, List.cons.injEq] at heq
    have hcount := congrArg (List.count quote) heq.2
    have hv0 : List.count quote v = 0 := List.count_eq_zero.2 hv
    simp [List.count_cons, List.count_append, hwq, hv0] at hcount
    omega

theorem PutCommand_escaped_key (sh : Shell) (g1 v : Bytes) (w : Char) (hw : isSpace w = true)
    (hg1 : ∀ c ∈ g1, isLineTerminator c = false) (hv : quote ∉ v)
    (hvl : ∀ c ∈ v, isLineTerminator c = false) :
    PutCommand sh (quote :: (g1 ++ quote :: w :: quote :: (v ++ [quote])))
      = putAccepted sh g1 v :=
  PutCommand_of_match sh _ g1 v
    (regex_groups_longest _ g1 v ⟨w, hw, hg1, hvl, rfl⟩
      (fun e h2 he => shape_longest g1 v w hw hv e h2 he))

theorem ExecuteCommand_put (sh : Shell) (args : Bytes) :
    ExecuteCommand sh ("put ".toList ++ args) = PutCommand sh args := rfl

theorem ExecuteCommand_get (sh : Shell) (args : Bytes) :
    ExecuteCommand sh ("get ".toList ++ args) = GetCommand sh args := rfl

theorem ExecuteCommand_delete (sh : Shell) (args : Bytes) :
    ExecuteCommand sh ("delete ".toList ++ args) = DeleteCommand sh args := rfl

theorem ExecuteCommand_list (sh : Shell) (args : Bytes) :
    ExecuteCommand sh ("list ".toList ++ args) = ListCommand sh args := rfl

/-! ## Lemmas on the handlers of `get` and `delete` -/

theorem substr_inner (args : Bytes) : substr args 1 (args.length - 2) = args.tail.dropLast := by
  cases args with
  | nil => rfl
  | cons x t =>
    simp only [substr, List.drop_one, List.tail_cons, List.length_cons, List.dropLast_eq_take]
    congr 1

theorem quoted_wrap (k : Bytes) :
    (quote :: (k ++ [quote])).length ≥ 2 ∧ (quote :: (k ++ [quote])).head? = some quote ∧
      (quote :: (k ++ [quote])).getLast? = some quote := by
  refine ⟨by simp, rfl, ?_⟩
  rw [show quote :: (k ++ [quote]) = (quote :: k) ++ [quote] from rfl, List.getLast?_append]
  rfl

theorem inner_wrap (k : Bytes) : (quote :: (k ++ [quote])).tail.dropLast = k := by
  simp

theorem lookup_erase (db : Store) (key : Bytes) : Store.lookup (db.erase key) key = none := by
  induction db with
  | nil => rfl
  | cons p rest ih =>
    obtain ⟨k, v⟩ := p
    by_cases hk : k = key
    · simp [Store.erase, hk, ih]
    · simp [Store.erase, hk, Store.lookup, ih]

theorem GetCommand_wrap (sh : Shell) (k : Bytes) :
    GetCommand sh (quote :: (k ++ [quote]))
      = if (DB.Get sh.m_db k).1.ok = true then
          (sh.call (Call.Get k) sh.m_db).println Stream.cout (PRINT_KEY_VALUE k (DB.Get sh.m_db k).2)
        else (sh.call (Call.Get k) sh.m_db).println Stream.cout
          ("Error retrieving key '".toList ++ k ++ "'".toList) := by
  unfold GetCommand
  simp only [if_pos (quoted_wrap k), substr_inner, inner_wrap]

theorem DeleteCommand_wrap (sh : Shell) (k : Bytes) :
    DeleteCommand sh (quote :: (k ++ [quote]))
      = (sh.call (Call.Delete k) (sh.m_db.erase k)).println
          Stream.cout ("Deleted ".toList ++ k) := by
  unfold DeleteCommand
  simp only [if_pos (quoted_wrap k), substr_inner, inner_wrap]
  simp [DB.Delete, Status.ok]

/-! ## Lemmas on the engine's sort order and iterator -/

theorem bytesLt_irrefl (a : Bytes) : bytesLt a a = false := by
  induction a with
  | nil => rfl
  | cons x xs ih => simp [bytesLt, ih]

theorem bytesLt_trans : ∀ (a b c : Bytes), bytesLt a b = true → bytesLt b c = true →
    bytesLt a c = true := by
  intro a
  induction a with
  | nil =>
    intro b c hab hbc
    cases b with
    | nil => simp [bytesLt] at hab
    | cons y ys =>
      cases c with
      | nil => simp [bytesLt] at hbc
      | cons z zs => rfl
  | cons x xs ih =>
    intro b c hab hbc
    cases b with
    | nil => simp [bytesLt] at hab
    | cons y ys =>
      cases c with
      | nil => simp [bytesLt] at hbc
      | cons z zs =>
        simp only [bytesLt] at hab hbc ⊢
        rcases lt_trichotomy x y with hxy | hxy | hxy
        · rcases lt_trichotomy y z with hyz | hyz | hyz
          · simp [lt_trans hxy hyz]
          · subst hyz; simp [hxy]
          · simp [hyz, not_lt_of_gt hyz] at hbc
        · subst hxy
          rcases lt_trichotomy x z with hxz | hxz | hxz
          · simp [hxz]
          · subst hxz
            simp only [lt_irrefl, if_false] at hab hbc ⊢
            exact ih ys zs hab hbc
          · simp [hxz, not_lt_of_gt hxz] at hbc
        · simp [hxy, not_lt_of_gt hxy] at hab

theorem bytesLt_total : ∀ (a b : Bytes), bytesLt a b = false → a ≠ b → bytesLt b a = true := by
  intro a
  induction a with
  | nil =>
    intro b hab hne
    cases b with
    | nil => exact absurd rfl hne
    | cons y ys => simp [bytesLt] at hab
  | cons x xs ih =>
    intro b hab hne
    cases b with
    | nil => rfl
    | cons y ys =>
      simp only [bytesLt] at hab ⊢
      rcases lt_trichotomy x y with hxy | hxy | hxy
      · simp [hxy] at hab
      · subst hxy
        simp only [lt_irrefl, if_false] at hab ⊢
        exact ih ys hab (fun h => hne (by rw [h]))
      · simp [hxy]

theorem mem_orderedUpsert (l : List (Bytes × Bytes)) (key value : Bytes) (p : Bytes × Bytes)
    (h : p ∈ orderedUpsert l key value) : p = (key, value) ∨ p ∈ l := by
  induction l with
  | nil => simpa [orderedUpsert] using h
  | cons q rest ih =>
    obtain ⟨k, v⟩ := q
    unfold orderedUpsert at h
    split_ifs at h with h1 h2
    · rcases List.mem_cons.1 h with h | h
      · exact Or.inl h
      · exact Or.inr (List.mem_cons_of_mem _ h)
    · rcases List.mem_cons.1 h with h | h
      · exact Or.inl h
      · exact Or.inr h
    · rcases List.mem_cons.1 h with h | h
      · exact Or.inr (by simp [h])
      · rcases ih h with h | h
        · exact Or.inl h
        · exact Or.inr (List.mem_cons_of_mem _ h)

theorem ascending_orderedUpsert (l : List (Bytes × Bytes)) (key value : Bytes)
    (h : Ascending l) : Ascending (orderedUpsert l key value) := by
  induction l with
  | nil => simp [orderedUpsert, Ascending]
  | cons q rest ih =>
    obtain ⟨k, v⟩ := q
    have hrest : Ascending rest := (List.pairwise_cons.1 h).2
    have hk : ∀ p ∈ rest, bytesLt k p.1 = true := (List.pairwise_cons.1 h).1
    unfold orderedUpsert
    split_ifs with h1 h2
    · subst h1
      exact List.pairwise_cons.2 ⟨hk, hrest⟩
    · refine List.pairwise_cons.2 ⟨?_, h⟩
      intro p hp
      rcases List.mem_cons.1 hp with hp | hp
      · subst hp; exact h2
      · exact bytesLt_trans _ _ _ h2 (hk p hp)
    · refine List.pairwise_cons.2 ⟨?_, ih hrest⟩
      intro p hp
      rcases mem_orderedUpsert rest key value p hp with hp | hp
      · subst hp
        exact bytesLt_total key k (by simpa using h2) h1
      · exact hk p hp

theorem mem_orderedUpsert_iff (l : List (Bytes × Bytes)) (key value : Bytes) (h : Ascending l)
    (k v : Bytes) :
    (k, v) ∈ orderedUpsert l key value ↔ (k = key ∧ v = value) ∨ (k ≠ key ∧ (k, v) ∈ l) := by
  induction l with
  | nil => simp [orderedUpsert]
  | cons q rest ih =>
    obtain ⟨k1, v1⟩ := q
    have hrest : Ascending rest := (List.pairwise_cons.1 h).2
    have hk : ∀ p ∈ rest, bytesLt k1 p.1 = true := (List.pairwise_cons.1 h).1
    have hne : ∀ a b c : Bytes, bytesLt a b = true → b ≠ a := by
      intro a b c hab hba
      rw [hba, bytesLt_irrefl] at hab
      exact absurd hab (by simp)
    unfold orderedUpsert
    split_ifs with h1 h2
    · subst h1
      simp only [List.mem_cons, Prod.mk.injEq]
      constructor
      · rintro (h | h)
        · exact Or.inl h
        · exact Or.inr ⟨hne key k v (hk _ h), Or.inr h⟩
      · rintro (h | ⟨h3, h4 | h4⟩)
        · exact Or.inl h
        · exact absurd h4.1 h3
        · exact Or.inr h4
    · simp only [List.mem_cons, Prod.mk.injEq]
      constructor
      · rintro (h | h | h)
        · exact Or.inl h
        · exact Or.inr ⟨by rw [h.1]; exact hne key k1 v h2, Or.inl h⟩
        · exact Or.inr ⟨hne key k v (bytesLt_trans _ _ _ h2 (hk _ h)), Or.inr h⟩
      · rintro (h | ⟨_, h4 | h4⟩)
        · exact Or.inl h
        · exact Or.inr (Or.inl h4)
        · exact Or.inr (Or.inr h4)
    · simp only [List.mem_cons, Prod.mk.injEq, ih hrest]
      constructor
      · rintro (h | h | h)
        · exact Or.inr ⟨by rw [h.1]; exact fun h5 => h1 h5.symm, Or.inl h⟩
        · exact Or.inl h
        · exact Or.inr ⟨h.1, Or.inr h.2⟩
      · rintro (h | ⟨h3, h4 | h4⟩)
        · exact Or.inr (Or.inl h)
        · exact Or.inl h4
        · exact Or.inr (Or.inr ⟨h3, h4⟩)

theorem ascending_NewIterator (db : Store) : Ascending (DB.NewIterator db) := by
  induction db with
  | nil => simp [DB.NewIterator, Ascending]
  | cons p rest ih => exact ascending_orderedUpsert _ p.1 p.2 ih

theorem mem_NewIterator (db : Store) (k v : Bytes) :
    (k, v) ∈ DB.NewIterator db ↔ db.lookup k = some v := by
  induction db with
  | nil => simp [DB.NewIterator, Store.lookup]
  | cons p rest ih =>
    obtain ⟨k1, v1⟩ := p
    have : DB.NewIterator ((k1, v1) :: rest) = orderedUpsert (DB.NewIterator rest) k1 v1 := rfl
    rw [this, mem_orderedUpsert_iff _ _ _ (ascending_NewIterator rest), ih]
    rw [show Store.lookup ((k1, v1) :: rest) k = if k1 = k then some v1 else Store.lookup rest k
      from rfl]
    by_cases hk : k1 = k
    · subst hk
      simp [eq_comm]
    · have hk2 : ¬ k = k1 := fun h => hk h.symm
      simp [hk, hk2]

theorem nodup_of_ascending (l : List (Bytes × Bytes)) (h : Ascending l) : l.Nodup := by
  refine List.Pairwise.imp ?_ h
  intro a b hab heq
  rw [heq, bytesLt_irrefl] at hab
  exact absurd hab (by simp)

theorem printAll_eq (it : List (Bytes × Bytes)) : ∀ sh : Shell,
    printAll sh it = ⟨sh.m_db, sh.calls,
      sh.out ++ it.map (fun p => (⟨Stream.cout, PRINT_KEY_VALUE p.1 p.2, true⟩ : Write))⟩ := by
  induction it with
  | nil => intro sh; simp [printAll]
  | cons p rest ih =>
    intro sh
    obtain ⟨k, v⟩ := p
    simp [printAll, ih, Shell.println]

/-! ## Lemmas on the dispatcher and the loop -/

theorem parsed_cmd_eq (command : Bytes) :
    (match find command ' ' with
      | some pos => substr command 0 pos
      | none => command) = command.takeWhile (fun c => c != ' ') := by
  induction command with
  | nil => rfl
  | cons x xs ih =>
    by_cases hx : x = ' '
    · simp [find, hx, substr]
    · cases hf : find xs ' ' with
      | none =>
        rw [hf] at ih
        simp only [find, if_neg hx, hf, Option.map_none']
        rw [List.takeWhile_cons_of_pos (by simpa using hx), ← ih]
      | some pos =>
        rw [hf] at ih
        simp only [find, if_neg hx, hf, Option.map_some']
        rw [List.takeWhile_cons_of_pos (by simpa using hx), ← ih]
        simp [substr]

theorem mapFind_unknown (verb : Bytes)
    (h : verb ∉ ["get".toList, "put".toList, "list".toList, "delete".toList]) :
    mapFind m_command_map verb = none := by
  simp only [List.mem_cons, List.mem_singleton, List.not_mem_nil, or_false, not_or] at h
  obtain ⟨h1, h2, h3, h4⟩ := h
  simp only [mapFind, m_command_map]
  rw [if_neg (fun e => h1 e.symm), if_neg (fun e => h2 e.symm), if_neg (fun e => h3 e.symm),
    if_neg (fun e => h4 e.symm)]

theorem ExecuteCommand_unknown (sh : Shell) (line : Bytes)
    (h : line.takeWhile (fun c => c != ' ')
      ∉ ["get".toList, "put".toList, "list".toList, "delete".toList]) :
    ExecuteCommand sh line = sh.println Stream.cerr ("Unknown command: ".toList ++ line) := by
  unfold ExecuteCommand
  simp only [parsed_cmd_eq, mapFind_unknown _ h]

theorem StartLoop_continue (fuel : Nat) (sh : Shell) (line : Bytes) (cin : List Bytes)
    (command : Bytes) (h : line ≠ "exit".toList) :
    StartLoop (fuel + 1) sh (line :: cin) command = StartLoop fuel (loopBody sh line) cin line := by
  simp only [StartLoop, getline, if_neg h, loopBody]

theorem StartLoop_exit (lines : List Bytes) : ∀ (fuel : Nat) (sh : Shell) (command : Bytes),
    "exit".toList ∈ lines → lines.length ≤ fuel →
    StartLoop fuel sh lines command
      = some ((((lines.takeWhile (fun l => decide (l ≠ "exit".toList))).foldl loopBody sh).print
          Stream.cout "> ".toList).println Stream.cout "Exiting the shell.".toList) := by
  induction lines with
  | nil => intro fuel sh command h; simp at h
  | cons l ls ih =>
    intro fuel sh command h hf
    match fuel, hf with
    | f + 1, hf =>
      by_cases hl : l = "exit".toList
      · rw [List.takeWhile_cons_of_neg (by simp [hl])]
        simp only [StartLoop, getline, hl, if_true, List.foldl_nil]
      · have hmem : "exit".toList ∈ ls := by
          rcases List.mem_cons.1 h with h | h
          · exact absurd h.symm hl
          · exact h
        rw [StartLoop_continue f sh l ls command hl, ih f _ l hmem (by simpa using hf),
          List.takeWhile_cons_of_pos (by simpa using hl), List.foldl_cons]

theorem StartLoop_no_exit (lines : List Bytes) : ∀ (fuel : Nat) (sh : Shell) (command : Bytes),
    "exit".toList ∉ lines → command ≠ "exit".toList → StartLoop fuel sh lines command = none := by
  induction lines with
  | nil =>
    intro fuel
    induction fuel with
    | zero => intro sh command _ _; rfl
    | succ n ih =>
      intro sh command h hc
      simp only [StartLoop, getline, if_neg hc]
      exact ih _ command h hc
  | cons l ls ih =>
    intro fuel sh command h _
    have hl : l ≠ "exit".toList := fun e => h (e ▸ List.mem_cons_self l ls)
    have hls : "exit".toList ∉ ls := fun e => h (List.mem_cons_of_mem l e)
    cases fuel with
    | zero => rfl
    | succ n =>
      rw [StartLoop_continue n sh l ls command hl]
      exact ih n _ l hls hl

/-! ## The escaping convention on `put` and on `get` -/

theorem doubleQuotes_length (k : Bytes) :
    (doubleQuotes k).length = k.length + k.count quote := by
  induction k with
  | nil => rfl
  | cons c cs ih =>
    by_cases hc : c = quote
    · subst hc
      simp only [doubleQuotes, if_true, List.length_cons, ih, List.count_cons_self]
      omega
    · have hq : quote ≠ c := fun e => hc e.symm
      simp only [doubleQuotes, if_neg hc, List.length_cons, ih, List.count_cons_of_ne hq]
      omega

theorem doubleQuotes_ne (k : Bytes) (h : quote ∈ k) : doubleQuotes k ≠ k := by
  intro e
  have hl := doubleQuotes_length k
  rw [e] at hl
  have := List.count_pos_iff.2 h
  omega

/-- On `put` a key written with doubled quotes is decoded: for every key `k`
without line terminators and every quote-free value `v` without line
terminators, `put '<esc k>' '<v>'` writes `v` under the literal key `k`. -/
theorem put_escaped_key (sh : Shell) (k v : Bytes)
    (hkl : ∀ c ∈ k, isLineTerminator c = false) (hv : quote ∉ v)
    (hvl : ∀ c ∈ v, isLineTerminator c = false) :
    ExecuteCommand sh ("put '".toList ++ doubleQuotes k ++ "' '".toList ++ v ++ "'".toList)
      = ⟨(k, v) :: sh.m_db.erase k, sh.calls ++ [Call.Put k v],
          sh.out ++ [⟨Stream.cout,
            "put '".toList ++ k ++ "' to '".toList ++ v ++ "'".toList, true⟩]⟩ := by
  have hp : "put '".toList ++ doubleQuotes k ++ "' '".toList ++ v ++ "'".toList
      = "put ".toList ++ (quote :: (doubleQuotes k ++ quote :: ' ' :: quote :: (v ++ [quote]))) := by
    simp
  rw [hp, ExecuteCommand_put, PutCommand_escaped_key sh (doubleQuotes k) v ' ' (by decide)
    (isLineTerminator_doubleQuotes k hkl) hv hvl]
  simp only [putAccepted, regex_replace_doubleQuotes, regex_replace_of_not_mem v hv]
  simp [DB.Put, Shell.call, Shell.println]

/-- On `get` a key written with doubled quotes is not decoded: the key looked
up is the text as written. -/
theorem get_escaped_key (sh : Shell) (k : Bytes) :
    (ExecuteCommand sh ("get '".toList ++ doubleQuotes k ++ "'".toList)).calls
      = sh.calls ++ [Call.Get (doubleQuotes k)] := by
  have hg : "get '".toList ++ doubleQuotes k ++ "'".toList
      = "get ".toList ++ (quote :: (doubleQuotes k ++ [quote])) := by simp
  rw [hg, ExecuteCommand_get, GetCommand_wrap]
  split_ifs <;> simp [Shell.call, Shell.println]

/-- The split at the last quote-space-quote on three quoted tokens: the
greedy first group of the pattern takes `a' 'b` as the key text, the same
behaviour that splits a value holding quote-space-quote in the wrong place. -/
theorem put_three_tokens :
    PutCommand Shell.fresh "'a' 'b' 'c'".toList
      = ⟨[("a' 'b".toList, "c".toList)], [Call.Put "a' 'b".toList "c".toList],
          [⟨Stream.cout, "put 'a' 'b' to 'c'".toList, true⟩]⟩ := by
  decide

/-! ## The properties of the shell -/

/-- Claim C1 (amended): for every store state and for every key `k` and value
`v` that contain no single quote and no line terminator (carriage return or line
feed), the line `put '<k>' '<v>'` makes exactly one `Put` of `(k, v)` and prints
`put '<k>' to '<v>'`; afterwards `Get` finds `v` under `k`, and the line
`get '<k>'` looks up `k` and prints `'<k>': '<v>'`. -/
theorem put_then_get (sh : Shell) (k v : Bytes) (hk : quote ∉ k) (hv : quote ∉ v)
    (hkl : ∀ c ∈ k, isLineTerminator c = false) (hvl : ∀ c ∈ v, isLineTerminator c = false) :
    ExecuteCommand sh ("put '".toList ++ k ++ "' '".toList ++ v ++ "'".toList)
        = ⟨(k, v) :: sh.m_db.erase k, sh.calls ++ [Call.Put k v],
            sh.out ++ [⟨Stream.cout,
              "put '".toList ++ k ++ "' to '".toList ++ v ++ "'".toList, true⟩]⟩
      ∧ DB.Get ((k, v) :: sh.m_db.erase k) k = (Status.OK, v)
      ∧ ExecuteCommand
          (ExecuteCommand sh ("put '".toList ++ k ++ "' '".toList ++ v ++ "'".toList))
          ("get '".toList ++ k ++ "'".toList)
        = ⟨(k, v) :: sh.m_db.erase k, sh.calls ++ [Call.Put k v, Call.Get k],
            sh.out ++ [⟨Stream.cout,
                "put '".toList ++ k ++ "' to '".toList ++ v ++ "'".toList, true⟩,
              ⟨Stream.cout, "'".toList ++ k ++ "': '".toList ++ v ++ "'".toList, true⟩]⟩ := by
  have hp : "put '".toList ++ k ++ "' '".toList ++ v ++ "'".toList
      = "put ".toList ++ (quote :: (k ++ quote :: ' ' :: quote :: (v ++ [quote]))) := by simp
  have hg : "get '".toList ++ k ++ "'".toList = "get ".toList ++ (quote :: (k ++ [quote])) := by
    simp
  have hput : ExecuteCommand sh ("put '".toList ++ k ++ "' '".toList ++ v ++ "'".toList)
      = ⟨(k, v) :: sh.m_db.erase k, sh.calls ++ [Call.Put k v],
          sh.out ++ [⟨Stream.cout,
            "put '".toList ++ k ++ "' to '".toList ++ v ++ "'".toList, true⟩]⟩ := by
    rw [hp, ExecuteCommand_put, PutCommand_escaped_key sh k v ' ' (by decide) hkl hv hvl]
    simp only [putAccepted, regex_replace_of_not_mem k hk, regex_replace_of_not_mem v hv]
    simp [DB.Put, Shell.call, Shell.println]
  have hget : DB.Get ((k, v) :: sh.m_db.erase k) k = (Status.OK, v) := by
    simp [DB.Get, Store.lookup]
  refine ⟨hput, hget, ?_⟩
  rw [hput, hg, ExecuteCommand_get, GetCommand_wrap]
  simp [hget, Status.ok, Shell.call, Shell.println, PRINT_KEY_VALUE]

/-- Witness of `put_then_get`: the transcript `put 'a' 'b'`, `get 'a'` on an
empty database. -/
theorem put_then_get_witness :
    ExecuteCommand Shell.fresh "put 'a' 'b'".toList
        = ⟨[("a".toList, "b".toList)], [Call.Put "a".toList "b".toList],
            [⟨Stream.cout, "put 'a' to 'b'".toList, true⟩]⟩
      ∧ DB.Get [("a".toList, "b".toList)] "a".toList = (Status.OK, "b".toList)
      ∧ ExecuteCommand (ExecuteCommand Shell.fresh "put 'a' 'b'".toList) "get 'a'".toList
        = ⟨[("a".toList, "b".toList)],
            [Call.Put "a".toList "b".toList, Call.Get "a".toList],
            [⟨Stream.cout, "put 'a' to 'b'".toList, true⟩,
              ⟨Stream.cout, "'a': 'b'".toList, true⟩]⟩ :=
  put_then_get Shell.fresh "a".toList "b".toList (by decide) (by decide) (by decide) (by decide)

/-- Counterexample to claim C1 as stated: the key consisting of one carriage
return contains no single quote, yet `put` answers with the usage error, writes
nothing, and the following `get` reports that the key is missing. -/
theorem put_then_get_counterexample :
    quote ∉ "\r".toList ∧ quote ∉ "v".toList
      ∧ ExecuteCommand Shell.fresh ("put '".toList ++ "\r".toList ++ "' '".toList ++ "v".toList
          ++ "'".toList)
        = ⟨[], [], [⟨Stream.cout,
            "Invalid 'put' command. Usage: put '<key>' '<value>'".toList, true⟩]⟩
      ∧ ExecuteCommand
          (ExecuteCommand Shell.fresh ("put '".toList ++ "\r".toList ++ "' '".toList
            ++ "v".toList ++ "'".toList))
          ("get '".toList ++ "\r".toList ++ "'".toList)
        = ⟨[], [Call.Get "\r".toList], [⟨Stream.cout,
            "Invalid 'put' command. Usage: put '<key>' '<value>'".toList, true⟩,
            ⟨Stream.cout, "Error retrieving key '\r'".toList, true⟩]⟩ := by
  decide

/-- Claim C2 at the key `a'b`: `put 'a''b' 'v'` decodes the doubled quote and
stores `v` under the literal key `a'b`, but `get 'a''b'` does not decode it: it
looks up the four-character key `a''b` and reports that the key is missing. -/
theorem escaped_key_put_then_get :
    doubleQuotes "a'b".toList = "a''b".toList
      ∧ ExecuteCommand Shell.fresh "put 'a''b' 'v'".toList
        = ⟨[("a'b".toList, "v".toList)], [Call.Put "a'b".toList "v".toList],
            [⟨Stream.cout, "put 'a'b' to 'v'".toList, true⟩]⟩
      ∧ ExecuteCommand (ExecuteCommand Shell.fresh "put 'a''b' 'v'".toList) "get 'a''b'".toList
        = ⟨[("a'b".toList, "v".toList)],
            [Call.Put "a'b".toList "v".toList, Call.Get "a''b".toList],
            [⟨Stream.cout, "put 'a'b' to 'v'".toList, true⟩,
              ⟨Stream.cout, "Error retrieving key 'a''b'".toList, true⟩]⟩ := by
  decide

/-- Claim C3 at the key `a` and the value quote-space-quote: the argument string
built by doubling the quotes of both texts is accepted, but the pair written is
not `(k, v)`: the first group runs up to the last quote-space-quote, so the key
written is `a' '` and the value is a single quote. -/
theorem escaped_value_put :
    "'a' ''' '''".toList
        = quote :: (doubleQuotes "a".toList
            ++ quote :: ' ' :: quote :: (doubleQuotes "' '".toList ++ [quote]))
      ∧ PutCommand Shell.fresh "'a' ''' '''".toList
        = ⟨[("a' '".toList, "'".toList)], [Call.Put "a' '".toList "'".toList],
            [⟨Stream.cout, "put 'a' '' to '''".toList, true⟩]⟩
      ∧ Call.Put "a' '".toList "'".toList ≠ Call.Put "a".toList "' '".toList := by
  decide

/-- Counterexample to claim C4 as stated: the two quoted tokens `'a'` and `'b'`
separated by a tab are not two quoted tokens separated by a single space, yet
`PutCommand` does not reject them: the separator `\s` of the pattern takes any
white-space character, so the value `b` is written under the key `a` and the
confirmation is printed, not the usage error. -/
theorem put_tab_separated_counterexample :
    ¬ TwoQuotedTokens "'a'\t'b'".toList
      ∧ PutCommand Shell.fresh "'a'\t'b'".toList
        = ⟨[("a".toList, "b".toList)], [Call.Put "a".toList "b".toList],
            [⟨Stream.cout, "put 'a' to 'b'".toList, true⟩]⟩
      ∧ (PutCommand Shell.fresh "'a'\t'b'".toList).calls ≠ Shell.fresh.calls
      ∧ (PutCommand Shell.fresh "'a'\t'b'".toList).out
        ≠ [⟨Stream.cout, "Invalid 'put' command. Usage: put '<key>' '<value>'".toList, true⟩] := by
  refine ⟨?_, by decide, by decide, by decide⟩
  rintro ⟨k, v, h⟩
  have hmem : ' ' ∈ "'a'\t'b'".toList := by
    rw [h]
    simp
  exact absurd hmem (by decide)

/-- Claim C4 (amended): for every store state and every argument string that
cannot be split as a quote, a text, a quote, one white-space character, a
quote, a text and a quote, the two texts holding no line terminator,
`PutCommand` reports the usage error, makes no call of the store and leaves it
unchanged. -/
theorem put_rejected (sh : Shell) (args : Bytes) (h : ¬ ∃ g1 g2, PutShape args g1 g2) :
    PutCommand sh args
      = ⟨sh.m_db, sh.calls, sh.out ++ [⟨Stream.cout,
          "Invalid 'put' command. Usage: put '<key>' '<value>'".toList, true⟩]⟩ :=
  PutCommand_of_no_shape sh args (fun g1 g2 hs => h ⟨g1, g2, hs⟩)

/-- Witness of `put_rejected`: a single quoted token and a second token whose
closing quote is missing are rejected, on a store that holds a binding. -/
theorem put_rejected_witness :
    PutCommand ⟨[("a".toList, "b".toList)], [], []⟩ "'a'".toList
        = ⟨[("a".toList, "b".toList)], [], [⟨Stream.cout,
            "Invalid 'put' command. Usage: put '<key>' '<value>'".toList, true⟩]⟩
      ∧ PutCommand ⟨[("a".toList, "b".toList)], [], []⟩ "'a' 'c".toList
        = ⟨[("a".toList, "b".toList)], [], [⟨Stream.cout,
            "Invalid 'put' command. Usage: put '<key>' '<value>'".toList, true⟩]⟩ :=
  ⟨put_rejected ⟨[("a".toList, "b".toList)], [], []⟩ "'a'".toList (by
      rintro ⟨g1, g2, w, _, _, _, h⟩
      have hl := congrArg List.length h
      simp at hl
      omega),
   put_rejected ⟨[("a".toList, "b".toList)], [], []⟩ "'a' 'c".toList (by
      rintro ⟨g1, g2, w, _, _, _, h⟩
      have hl := congrArg List.getLast? h
      rw [show quote :: (g1 ++ quote :: w :: quote :: (g2 ++ [quote]))
        = (quote :: (g1 ++ quote :: w :: quote :: g2)) ++ [quote] by simp,
        List.getLast?_append] at hl
      have hq : ([quote].getLast?.or (quote :: (g1 ++ quote :: w :: quote :: g2)).getLast?)
          = some quote := rfl
      rw [hq] at hl
      exact absurd hl (by decide))⟩

/-- Claim C5: for every store state and every argument string whose first
character is not a single quote or whose last character is not a single quote
(the empty string included), `PutCommand` leaves the store unchanged, makes no
call of it, and prints exactly the usage error. -/
theorem put_missing_quote (sh : Shell) (args : Bytes)
    (h : args.head? ≠ some quote ∨ args.getLast? ≠ some quote) :
    PutCommand sh args
      = ⟨sh.m_db, sh.calls, sh.out ++ [⟨Stream.cout,
          "Invalid 'put' command. Usage: put '<key>' '<value>'".toList, true⟩]⟩ := by
  apply PutCommand_of_no_shape
  rintro g1 g2 ⟨w, _, _, _, hargs⟩
  subst hargs
  rcases h with h | h
  · exact h rfl
  · apply h
    rw [show quote :: (g1 ++ quote :: w :: quote :: (g2 ++ [quote]))
      = (quote :: (g1 ++ quote :: w :: quote :: g2)) ++ [quote] by simp, List.getLast?_append]
    rfl

/-- Witness of `put_missing_quote`: the closing quote of the value is missing. -/
theorem put_missing_quote_witness :
    PutCommand ⟨[("a".toList, "b".toList)], [], []⟩ "'a' 'c".toList
      = ⟨[("a".toList, "b".toList)], [], [⟨Stream.cout,
          "Invalid 'put' command. Usage: put '<key>' '<value>'".toList, true⟩]⟩ :=
  put_missing_quote ⟨[("a".toList, "b".toList)], [], []⟩ "'a' 'c".toList (Or.inr (by decide))

/-- Claim C6: for every store state and every input line whose text before its
first space (the whole line when it has no space) is none of `get`, `put`,
`list`, `delete`, `ExecuteCommand` makes no call of the store, leaves it
unchanged, and writes to the error stream exactly `Unknown command: ` followed
by the whole line. -/
theorem unknown_command (sh : Shell) (line : Bytes)
    (h : line.takeWhile (fun c => c != ' ')
      ∉ ["get".toList, "put".toList, "list".toList, "delete".toList]) :
    ExecuteCommand sh line
      = ⟨sh.m_db, sh.calls,
          sh.out ++ [⟨Stream.cerr, "Unknown command: ".toList ++ line, true⟩]⟩ :=
  ExecuteCommand_unknown sh line h

/-- Witness of `unknown_command`: a verb in another case, a prefix of a verb,
and a verb preceded by a space are unknown commands. -/
theorem unknown_command_witness :
    ExecuteCommand ⟨[("a".toList, "b".toList)], [], []⟩ "GET 'a'".toList
        = ⟨[("a".toList, "b".toList)], [],
            [⟨Stream.cerr, "Unknown command: GET 'a'".toList, true⟩]⟩
      ∧ ExecuteCommand ⟨[("a".toList, "b".toList)], [], []⟩ "del 'a'".toList
        = ⟨[("a".toList, "b".toList)], [],
            [⟨Stream.cerr, "Unknown command: del 'a'".toList, true⟩]⟩
      ∧ ExecuteCommand ⟨[("a".toList, "b".toList)], [], []⟩ " delete 'a'".toList
        = ⟨[("a".toList, "b".toList)], [],
            [⟨Stream.cerr, "Unknown command:  delete 'a'".toList, true⟩]⟩ :=
  ⟨unknown_command ⟨[("a".toList, "b".toList)], [], []⟩ "GET 'a'".toList (by decide),
   unknown_command ⟨[("a".toList, "b".toList)], [], []⟩ "del 'a'".toList (by decide),
   unknown_command ⟨[("a".toList, "b".toList)], [], []⟩ " delete 'a'".toList (by decide)⟩

/-- Claim C7: for every store state and every string `k`, written before or
not, the line `delete '<k>'` deletes exactly the key `k` and prints
`Deleted <k>`, after which `Get` does not find `k`, and the line `get '<k>'`
looks up that same key `k` and prints `Error retrieving key '<k>'`, no
key/value pair. -/
theorem delete_then_get (sh : Shell) (k : Bytes) :
    ExecuteCommand sh ("delete '".toList ++ k ++ "'".toList)
        = ⟨sh.m_db.erase k, sh.calls ++ [Call.Delete k],
            sh.out ++ [⟨Stream.cout, "Deleted ".toList ++ k, true⟩]⟩
      ∧ DB.Get (sh.m_db.erase k) k = (Status.NotFound, [])
      ∧ ExecuteCommand (ExecuteCommand sh ("delete '".toList ++ k ++ "'".toList))
          ("get '".toList ++ k ++ "'".toList)
        = ⟨sh.m_db.erase k, sh.calls ++ [Call.Delete k, Call.Get k],
            sh.out ++ [⟨Stream.cout, "Deleted ".toList ++ k, true⟩,
              ⟨Stream.cout, "Error retrieving key '".toList ++ k ++ "'".toList, true⟩]⟩ := by
  have hd : "delete '".toList ++ k ++ "'".toList
      = "delete ".toList ++ (quote :: (k ++ [quote])) := by simp
  have hg : "get '".toList ++ k ++ "'".toList = "get ".toList ++ (quote :: (k ++ [quote])) := by
    simp
  have hget : DB.Get (sh.m_db.erase k) k = (Status.NotFound, []) := by
    simp [DB.Get, lookup_erase]
  have hdel : ExecuteCommand sh ("delete '".toList ++ k ++ "'".toList)
      = ⟨sh.m_db.erase k, sh.calls ++ [Call.Delete k],
          sh.out ++ [⟨Stream.cout, "Deleted ".toList ++ k, true⟩]⟩ := by
    rw [hd, ExecuteCommand_delete, DeleteCommand_wrap]
    simp [Shell.call, Shell.println]
  refine ⟨hdel, hget, ?_⟩
  rw [hdel, hg, ExecuteCommand_get, GetCommand_wrap]
  simp [hget, Status.ok, Shell.call, Shell.println]

/-- Claim C8: for every store state and every argument remainder, the `list`
handler leaves the store unchanged and writes, after one call of the iterator
and nothing else, one line `'<key>': '<value>'` for each position of the
iterator; the pairs so printed are exactly the pairs `Get` finds in the store,
each of them once, in strictly ascending byte-lexicographic order of key. -/
theorem list_ascending (sh : Shell) (args : Bytes) :
    ListCommand sh args
        = ⟨sh.m_db, sh.calls ++ [Call.NewIterator],
            sh.out ++ (DB.NewIterator sh.m_db).map
              (fun p => ⟨Stream.cout, "'".toList ++ p.1 ++ "': '".toList ++ p.2 ++ "'".toList,
                true⟩)⟩
      ∧ (∀ key value, (key, value) ∈ DB.NewIterator sh.m_db
          ↔ DB.Get sh.m_db key = (Status.OK, value))
      ∧ (DB.NewIterator sh.m_db).Nodup
      ∧ (DB.NewIterator sh.m_db).Pairwise (fun a b => bytesLt a.1 b.1 = true) := by
  refine ⟨?_, ?_, nodup_of_ascending _ (ascending_NewIterator _), ascending_NewIterator _⟩
  · simp [ListCommand, printAll_eq, Shell.call, PRINT_KEY_VALUE]
  · intro key value
    rw [mem_NewIterator]
    unfold DB.Get
    cases Store.lookup sh.m_db key <;> simp

/-- Claim C9: for every sequence of input lines that contains the line `exit`,
`Start` ends as soon as the fuel is at least the number of lines: it has
dispatched, in order, exactly the lines before the first `exit`, each after a
prompt, and its last output is the farewell `Exiting the shell.`; a line that
only contains `exit`, such as `exit ` or ` exit`, does not end the loop. -/
theorem start_until_exit (sh : Shell) (lines : List Bytes) (fuel : Nat)
    (h : "exit".toList ∈ lines) (hfuel : lines.length ≤ fuel) :
    (∃ final, Start fuel sh lines = some final
        ∧ final = (((lines.takeWhile (fun l => decide (l ≠ "exit".toList))).foldl
            (fun s line => ExecuteCommand (s.print Stream.cout "> ".toList) line)
            (sh.println Stream.cout "LevelDB REPL Shell. Type 'exit' to quit.".toList)).print
              Stream.cout "> ".toList).println Stream.cout "Exiting the shell.".toList
        ∧ final.out.getLast? = some ⟨Stream.cout, "Exiting the shell.".toList, true⟩)
      ∧ (∀ line ∈ ["exit ".toList, " exit".toList], ∀ (n : Nat) (s : Shell) (cin : List Bytes)
          (command : Bytes),
          StartLoop (n + 1) s (line :: cin) command
            = StartLoop n (ExecuteCommand (s.print Stream.cout "> ".toList) line) cin line) := by
  constructor
  · refine ⟨_, StartLoop_exit lines fuel _ [] h hfuel, rfl, ?_⟩
    simp [Shell.println]
  · intro line hline n s cin command
    have hne : line ≠ "exit".toList := by
      rcases List.mem_cons.1 hline with h1 | h1
      · rw [h1]; decide
      · rw [List.mem_singleton.1 h1]; decide
    exact StartLoop_continue n s line cin command hne

/-- Witness of `start_until_exit`: `exit ` is dispatched, `exit` ends the loop,
and `list` after it is never read. -/
theorem start_until_exit_witness :
    (∃ final, Start 3 Shell.fresh ["exit ".toList, "exit".toList, "list".toList] = some final
        ∧ final = (((["exit ".toList, "exit".toList, "list".toList].takeWhile
            (fun l => decide (l ≠ "exit".toList))).foldl
            (fun s line => ExecuteCommand (s.print Stream.cout "> ".toList) line)
            (Shell.fresh.println Stream.cout
              "LevelDB REPL Shell. Type 'exit' to quit.".toList)).print
              Stream.cout "> ".toList).println Stream.cout "Exiting the shell.".toList
        ∧ final.out.getLast? = some ⟨Stream.cout, "Exiting the shell.".toList, true⟩)
      ∧ (∀ line ∈ ["exit ".toList, " exit".toList], ∀ (n : Nat) (s : Shell) (cin : List Bytes)
          (command : Bytes),
          StartLoop (n + 1) s (line :: cin) command
            = StartLoop n (ExecuteCommand (s.print Stream.cout "> ".toList) line) cin line) :=
  start_until_exit Shell.fresh ["exit ".toList, "exit".toList, "list".toList] 3
    (by decide) (by decide)

end LevelDBShell
